import Mathlib

/-!
Verification of the JobSpy crawl engine (site scrapers under `src/jobspy/`).

The development shallowly embeds the scrapers' pure control and data logic:

* the record shape (`JobPost`, `Location`, `JobResponse`) — the `jobspy.model`
  module is not part of the sources, so the record shape is modelled from the
  specification's data model (§3) as a plain structure without validation;
* CPython's salted string hashing, used by the scrapers to mint identifiers
  (`f"infojobs-{abs(hash(job_url))}"` and the analogous lines in the
  ProfessionHU, Arbetsformedlingen, PosaoHR and Upwork scrapers);
* the pagination loop shared by `InfoJobsScraper._async_scrape`,
  `PosaoHRScraper._async_scrape` and (up to an inner per-record loop)
  `ProfessionHUScraper._async_scrape`;
* the per-card extraction functions of the Pracuj, InfoJobs and ProfessionHU
  scrapers, including `PracujPLScraper._clean_text` and a model of
  `urllib.parse.urljoin` restricted to the reference shapes the code produces;
* the pacing delay `random.uniform(self.delay, self.delay + self.band_delay)`.
-/

/-- Modelled from the spec: model of `jobspy.model.Country`; `jobspy/model.py`
is not under the provided sources; §3 of the spec only requires a structured
country component, so the model wraps the country name. -/
structure Country where
  name : String
deriving DecidableEq, Repr

/-- Modelled from the spec: model of `jobspy.model.Country.from_string`;
`jobspy/model.py` is not under the provided sources; all call sites in the
scrapers pass a fixed country name. -/
def Country.from_string (s : String) : Country := ⟨s⟩

/-- Modelled from the spec: model of `jobspy.model.Location`; `jobspy/model.py`
is not under the provided sources; §3 requires a structured location
(city + country). The scrapers pass `city` either a string or `None`. -/
structure Location where
  city : Option String
  state : Option String
  country : Country
deriving DecidableEq, Repr

/-- Modelled from the spec: model of `jobspy.model.JobPost`; `jobspy/model.py`
is not under the provided sources; §3 describes the normalized record
(identifier, title, company name, structured location, URL, optional
description). Construction is total; no field validation is modelled. -/
structure JobPost where
  id : String
  title : Option String
  company_name : Option String
  location : Location
  job_url : String
  description : Option String
deriving DecidableEq, Repr

/-- Modelled from the spec: model of `jobspy.model.JobResponse`;
`jobspy/model.py` is not under the provided sources. -/
structure JobResponse where
  jobs : List JobPost
deriving DecidableEq, Repr

/-- Model of CPython's salted string hashing, as used by `hash(job_url)` in the
scrapers. CPython hashes `str` with siphash keyed by a per-process secret
(derived from `PYTHONHASHSEED`, random by default); the model abstracts the
mixing to a seeded polynomial accumulator over the code points, reduced mod
`2 ^ 64`, keeping the two properties at issue: the result is a function of
(process seed, string), and it genuinely depends on the seed. The Python value
is signed and the scrapers apply `abs`; the model folds to a nonnegative value
directly. -/
def pyHash (seed : Nat) (s : String) : Nat :=
  s.data.foldl (fun h c => (h * 1000003 + c.toNat) % 2 ^ 64) (seed % 2 ^ 64)

/-- The pagination loop of `InfoJobsScraper._async_scrape` (lines 47-56), also
the loop of `PosaoHRScraper._async_scrape` (lines 46-54):
`while len(job_list) < results_wanted:` fetch the next page; `if not jobs:
break`; `job_list.extend(jobs[: results_wanted - len(job_list)])`. A page is
given as the list of records it yields; a fetch failure and a page with no
cards both make `_fetch_jobs` return a falsy value and are represented by the
empty page. The loop is generic in the record type, as in the source it never
inspects a record. -/
def crawlLoop (wanted : Nat) : List (List α) → List α → List α
  | [], acc => acc
  | p :: ps, acc =>
    if acc.length < wanted then
      if p.isEmpty then acc
      else crawlLoop wanted ps (acc ++ p.take (wanted - acc.length))
    else acc

/-- The number of fetches the pagination loop performs: one per iteration of
the `while` body of `InfoJobsScraper._async_scrape`, with `n` the running
`len(job_list)`. -/
def crawlFetchCount (wanted : Nat) : List (List α) → Nat → Nat
  | [], _ => 0
  | p :: ps, n =>
    if n < wanted then
      1 + (if p.isEmpty then 0
           else crawlFetchCount wanted ps (n + (p.take (wanted - n)).length))
    else 0

/-- The inner per-record loop of `ProfessionHUScraper._async_scrape`
(lines 61-64): `for job in jobs: job_list.append(job);
if len(job_list) >= results_wanted: break`. -/
def profInner (wanted : Nat) : List α → List α → List α
  | [], acc => acc
  | j :: js, acc =>
    if wanted ≤ (acc ++ [j]).length then acc ++ [j]
    else profInner wanted js (acc ++ [j])

/-- The pagination loop of `ProfessionHUScraper._async_scrape` (lines 52-68). -/
def profLoop (wanted : Nat) : List (List α) → List α → List α
  | [], acc => acc
  | p :: ps, acc =>
    if acc.length < wanted then
      if p.isEmpty then acc
      else profLoop wanted ps (profInner wanted p acc)
    else acc

/-- `ProfessionHUScraper._async_scrape` final result (line 72):
`JobResponse(jobs=job_list[:results_wanted])`. -/
def profScrape (wanted : Nat) (pages : List (List α)) : List α :=
  (profLoop wanted pages []).take wanted

/-- Model of `scraper_input.results_wanted or 10` (InfoJobs line 40, Pracuj
line 42, ProfessionHU line 39, Arbetsformedlingen line 76, PosaoHR line 39):
Python `or` replaces both `None` and `0` by the default `10`. -/
def effectiveResultsWanted : Option Nat → Nat
  | none => 10
  | some n => if n = 0 then 10 else n

theorem crawlLoop_append_take (wanted : Nat) (pages : List (List α))
    (acc : List α) (hacc : acc.length ≤ wanted) :
    crawlLoop wanted pages acc
      = acc ++ ((pages.takeWhile (fun p => !p.isEmpty)).flatten).take
          (wanted - acc.length) := by
  induction pages generalizing acc with
  | nil => simp [crawlLoop]
  | cons p ps ih =>
    by_cases hlt : acc.length < wanted
    · by_cases hp : p.isEmpty
      · have hpnil : p = [] := List.isEmpty_iff.mp hp
        subst hpnil
        simp [crawlLoop, hlt, List.takeWhile_cons]
      · have hpf : p.isEmpty = false := Bool.not_eq_true _ |>.mp hp
        have step : crawlLoop wanted (p :: ps) acc
            = crawlLoop wanted ps (acc ++ p.take (wanted - acc.length)) := by
          simp [crawlLoop, hlt, hpf]
        have hacc2 : (acc ++ p.take (wanted - acc.length)).length ≤ wanted := by
          simp only [List.length_append, List.length_take]
          omega
        rw [step, ih _ hacc2]
        rw [List.takeWhile_cons, hpf]
        simp only [Bool.not_false, if_true]
        rw [List.flatten_cons, List.take_append_eq_append_take,
          List.append_assoc]
        congr 2
        have hlen : (acc ++ p.take (wanted - acc.length)).length
            = acc.length + min (wanted - acc.length) p.length := by
          simp [List.length_append, List.length_take]
        rw [hlen]
        congr 1
        omega
    · have heq : ¬ acc.length < wanted := hlt
      have : wanted - acc.length = 0 := by omega
      simp [crawlLoop, heq, this]

/-- Characterization of the pagination loop: the crawl result is the prefix of
length `wanted` of the concatenation of the pages that precede the first empty
page, in order. -/
theorem crawlLoop_eq_take_flatten (wanted : Nat) (pages : List (List α)) :
    crawlLoop wanted pages []
      = ((pages.takeWhile (fun p => !p.isEmpty)).flatten).take wanted := by
  simpa using crawlLoop_append_take wanted pages [] (by simp)

theorem crawlLoop_length_le (wanted : Nat) (pages : List (List α)) :
    (crawlLoop wanted pages []).length ≤ wanted := by
  rw [crawlLoop_eq_take_flatten]
  simpa using List.length_take_le wanted _

theorem profInner_eq_append_take (wanted : Nat) (p : List α) (acc : List α)
    (h : acc.length < wanted) :
    profInner wanted p acc = acc ++ p.take (wanted - acc.length) := by
  induction p generalizing acc with
  | nil =>
    rw [show profInner wanted ([] : List α) acc = acc from rfl]
    simp
  | cons j js ih =>
    by_cases hfull : wanted ≤ (acc ++ [j]).length
    · have h1 : wanted - acc.length = 1 := by
        simp only [List.length_append, List.length_cons, List.length_nil] at hfull
        omega
      rw [show profInner wanted (j :: js) acc
          = if wanted ≤ (acc ++ [j]).length then acc ++ [j]
            else profInner wanted js (acc ++ [j]) from rfl]
      rw [if_pos hfull, h1]
      simp
    · have hlt2 : (acc ++ [j]).length < wanted := by omega
      rw [show profInner wanted (j :: js) acc
          = if wanted ≤ (acc ++ [j]).length then acc ++ [j]
            else profInner wanted js (acc ++ [j]) from rfl]
      rw [if_neg hfull, ih _ hlt2]
      have h2 : wanted - (acc ++ [j]).length = wanted - acc.length - 1 := by
        simp only [List.length_append, List.length_cons, List.length_nil]
        omega
      obtain ⟨k, hk⟩ : ∃ k, wanted - acc.length = k + 1 :=
        ⟨wanted - acc.length - 1, by omega⟩
      rw [h2, hk]
      simp [List.take_succ_cons, List.append_assoc]

theorem profLoop_eq_crawlLoop (wanted : Nat) (pages : List (List α))
    (acc : List α) : profLoop wanted pages acc = crawlLoop wanted pages acc := by
  induction pages generalizing acc with
  | nil => rfl
  | cons p ps ih =>
    by_cases hlt : acc.length < wanted
    · by_cases hp : p.isEmpty
      · simp [profLoop, crawlLoop, hlt, hp]
      · have hpf : p.isEmpty = false := Bool.not_eq_true _ |>.mp hp
        rw [show profLoop wanted (p :: ps) acc
            = if acc.length < wanted then
                (if p.isEmpty then acc
                 else profLoop wanted ps (profInner wanted p acc)) else acc
            from rfl]
        rw [show crawlLoop wanted (p :: ps) acc
            = if acc.length < wanted then
                (if p.isEmpty then acc
                 else crawlLoop wanted ps (acc ++ p.take (wanted - acc.length)))
              else acc from rfl]
        rw [if_pos hlt, if_pos hlt, hpf]
        simp only [Bool.false_eq_true, if_false]
        rw [profInner_eq_append_take wanted p acc hlt, ih]
    · simp [profLoop, crawlLoop, hlt]

theorem profScrape_eq_crawlLoop (wanted : Nat) (pages : List (List α)) :
    profScrape wanted pages = crawlLoop wanted pages [] := by
  rw [profScrape, profLoop_eq_crawlLoop]
  exact List.take_of_length_le (crawlLoop_length_le wanted pages)

/-- C2 --- Quota respect: the crawl never returns more than the requested
quota; when every fetched page yields at least one record (so all `C` records
of the site are reachable before the loop's empty-page exit), both the
InfoJobs-style loop and the ProfessionHU loop return exactly `min C Q`
records; and an unset quota defaults to 10 (`results_wanted or 10`). -/
theorem crawl_quota_respected (pages : List (List JobPost)) (wanted : Nat) :
    (crawlLoop wanted pages []).length ≤ wanted ∧
    ((∀ p ∈ pages, p ≠ []) →
      (crawlLoop wanted pages []).length = min pages.flatten.length wanted ∧
      (profScrape wanted pages).length = min pages.flatten.length wanted) ∧
    effectiveResultsWanted none = 10 := by
  refine ⟨crawlLoop_length_le wanted pages, ?_, rfl⟩
  intro hne
  have htw : pages.takeWhile (fun p => !p.isEmpty) = pages := by
    apply List.takeWhile_eq_self_iff.mpr
    intro p hp
    simpa [List.isEmpty_iff] using hne p hp
  have hmain : (crawlLoop wanted pages []).length
      = min pages.flatten.length wanted := by
    rw [crawlLoop_eq_take_flatten, htw, List.length_take, Nat.min_comm]
  exact ⟨hmain, by rw [profScrape_eq_crawlLoop]; exact hmain⟩

/-- Witness for `crawl_quota_respected` at a concrete input: two pages of one
and two records, quota 2. -/
theorem crawl_quota_respected_witness :
    (crawlLoop 2
      [[(⟨"a", none, none, ⟨none, none, ⟨"Spain"⟩⟩, "u1", none⟩ : JobPost)],
       [(⟨"b", none, none, ⟨none, none, ⟨"Spain"⟩⟩, "u2", none⟩ : JobPost),
        (⟨"c", none, none, ⟨none, none, ⟨"Spain"⟩⟩, "u3", none⟩ : JobPost)]]
      []).length = min 3 2 :=
  ((crawl_quota_respected _ 2).2.1 (by decide)).1

theorem crawlLoop_stops_at_empty (wanted : Nat) (pre suf : List (List α))
    (acc : List α) :
    crawlLoop wanted (pre ++ [] :: suf) acc = crawlLoop wanted pre acc := by
  induction pre generalizing acc with
  | nil => simp [crawlLoop]
  | cons p ps ih =>
    by_cases hlt : acc.length < wanted
    · by_cases hp : p.isEmpty
      · simp [crawlLoop, hlt, hp]
      · have hpf : p.isEmpty = false := Bool.not_eq_true _ |>.mp hp
        simp only [List.cons_append]
        rw [show crawlLoop wanted (p :: (ps ++ [] :: suf)) acc
            = if acc.length < wanted then
                (if p.isEmpty then acc
                 else crawlLoop wanted (ps ++ [] :: suf)
                   (acc ++ p.take (wanted - acc.length))) else acc from rfl]
        rw [show crawlLoop wanted (p :: ps) acc
            = if acc.length < wanted then
                (if p.isEmpty then acc
                 else crawlLoop wanted ps (acc ++ p.take (wanted - acc.length)))
              else acc from rfl]
        rw [if_pos hlt, if_pos hlt, hpf]
        simp only [Bool.false_eq_true, if_false]
        exact ih _
    · simp [crawlLoop, hlt]

theorem crawlFetchCount_le (wanted : Nat) (pre suf : List (List α)) (n : Nat) :
    crawlFetchCount wanted (pre ++ [] :: suf) n ≤ pre.length + 1 := by
  induction pre generalizing n with
  | nil =>
    simp only [List.nil_append, List.length_nil]
    rw [show crawlFetchCount wanted (([] : List α) :: suf) n
        = if n < wanted then
            1 + (if ([] : List α).isEmpty then 0
                 else crawlFetchCount wanted suf
                   (n + (([] : List α).take (wanted - n)).length)) else 0
        from rfl]
    by_cases h : n < wanted <;> simp [h]
  | cons p ps ih =>
    simp only [List.cons_append, List.length_cons]
    rw [show crawlFetchCount wanted (p :: (ps ++ [] :: suf)) n
        = if n < wanted then
            1 + (if p.isEmpty then 0
                 else crawlFetchCount wanted (ps ++ [] :: suf)
                   (n + (p.take (wanted - n)).length)) else 0 from rfl]
    by_cases h : n < wanted
    · rw [if_pos h]
      by_cases hp : p.isEmpty
      · simp [hp]
      · have hpf : p.isEmpty = false := Bool.not_eq_true _ |>.mp hp
        rw [hpf]
        simp only [Bool.false_eq_true, if_false]
        have := ih (n + (p.take (wanted - n)).length)
        omega
    · rw [if_neg h]; omega

/-- C8 --- Empty-page termination: the pagination loop's `if not jobs: break`
(InfoJobs line 51, Pracuj line 78, ProfessionHU line 58) is final. The loop's
result on any page sequence containing a structurally-empty page equals its
result on the part before that page (nothing after the empty page ever
reaches the output), and the number of fetches performed is at most one more
than the number of preceding pages: the empty page is fetched once and never
retried, and no later page is ever fetched. -/
theorem empty_page_is_terminal (wanted : Nat) (pre suf : List (List JobPost)) :
    crawlLoop wanted (pre ++ [] :: suf) [] = crawlLoop wanted pre [] ∧
    crawlFetchCount wanted (pre ++ [] :: suf) 0 ≤ pre.length + 1 :=
  ⟨crawlLoop_stops_at_empty wanted pre suf [], crawlFetchCount_le wanted pre suf 0⟩

/-- The claim that aggregation deduplicates by canonical URL is false on the
code: `InfoJobsScraper._async_scrape` line 54 (`job_list.extend(...)`) and
`ArbetsformedlingenScraper._async_scrape` line 222 (`job_list.append(...)`)
never consult the already-collected identifiers. A record with the same URL on
page 1 and page 2 appears twice in the final result, not once. -/
theorem dedup_claim_false :
    ((crawlLoop 10
      [[(⟨"infojobs-1", some "Dev", some "Acme",
          ⟨some "Madrid", none, ⟨"Spain"⟩⟩,
          "https://www.infojobs.net/of-1", none⟩ : JobPost)],
       [(⟨"infojobs-1", some "Dev", some "Acme",
          ⟨some "Madrid", none, ⟨"Spain"⟩⟩,
          "https://www.infojobs.net/of-1", none⟩ : JobPost)]] []).countP
        (fun r => r.job_url == "https://www.infojobs.net/of-1")) = 2 := by
  decide

/-- C3 (amended) --- The crawl performs no deduplication: as long as the quota
is not yet reached and pages keep yielding records, the result is the plain
concatenation of all offered records, so a canonical URL offered `N` times
occurs `N` times in the final result (its occurrence count is preserved, never
collapsed to one). -/
theorem crawl_appends_without_dedup (pages : List (List JobPost)) (wanted : Nat)
    (u : String) (hne : ∀ p ∈ pages, p ≠ [])
    (hlen : pages.flatten.length ≤ wanted) :
    crawlLoop wanted pages [] = pages.flatten ∧
    (crawlLoop wanted pages []).countP (fun r => r.job_url == u)
      = pages.flatten.countP (fun r => r.job_url == u) := by
  have htw : pages.takeWhile (fun p => !p.isEmpty) = pages := by
    apply List.takeWhile_eq_self_iff.mpr
    intro p hp
    simpa [List.isEmpty_iff] using hne p hp
  have hmain : crawlLoop wanted pages [] = pages.flatten := by
    rw [crawlLoop_eq_take_flatten, htw]
    exact List.take_of_length_le hlen
  exact ⟨hmain, by rw [hmain]⟩

/-- Witness for `crawl_appends_without_dedup`: the duplicate URL offered on two
pages is counted twice in the output. -/
theorem crawl_appends_without_dedup_witness :
    (crawlLoop 10
      [[(⟨"pracujpl-1", some "Dev", some "Acme",
          ⟨some "Kraków", none, ⟨"Poland"⟩⟩, "https://www.pracuj.pl/o/1",
          none⟩ : JobPost)],
       [(⟨"pracujpl-1", some "Dev", some "Acme",
          ⟨some "Kraków", none, ⟨"Poland"⟩⟩, "https://www.pracuj.pl/o/1",
          none⟩ : JobPost)]] []).countP
        (fun r => r.job_url == "https://www.pracuj.pl/o/1")
      = ([(⟨"pracujpl-1", some "Dev", some "Acme",
          ⟨some "Kraków", none, ⟨"Poland"⟩⟩, "https://www.pracuj.pl/o/1",
          none⟩ : JobPost)],
         [(⟨"pracujpl-1", some "Dev", some "Acme",
          ⟨some "Kraków", none, ⟨"Poland"⟩⟩, "https://www.pracuj.pl/o/1",
          none⟩ : JobPost)]).1.length + 1 := by
  rw [(crawl_appends_without_dedup _ 10 "https://www.pracuj.pl/o/1"
    (by decide) (by decide)).2]
  decide

/-- Strict discovery order on (page index, in-page position) tags. -/
def discoveryLT (a b : Nat × Nat) : Prop :=
  a.1 < b.1 ∨ (a.1 = b.1 ∧ a.2 < b.2)

/-- Non-decreasing discovery order on (page index, in-page position) tags. -/
def discoveryLE (a b : Nat × Nat) : Prop :=
  a.1 < b.1 ∨ (a.1 = b.1 ∧ a.2 ≤ b.2)

/-- Tags every record of one page with the page index `i` and its document
position, starting at `j`. -/
def tagPage (i : Nat) : Nat → List α → List ((Nat × Nat) × α)
  | _, [] => []
  | j, a :: as => ((i, j), a) :: tagPage i (j + 1) as

/-- Tags every record of every page with its (page, in-page position)
discovery coordinates, pages numbered from `i`. -/
def tagPages (i : Nat) : List (List α) → List (List ((Nat × Nat) × α))
  | [] => []
  | p :: ps => tagPage i 0 p :: tagPages (i + 1) ps

theorem mem_tagPage {x : (Nat × Nat) × α} (i j : Nat) (p : List α)
    (hx : x ∈ tagPage i j p) : x.1.1 = i ∧ j ≤ x.1.2 := by
  induction p generalizing j with
  | nil => simp [tagPage] at hx
  | cons a as ih =>
    rw [tagPage] at hx
    rcases List.mem_cons.mp hx with h | h
    · subst h; exact ⟨rfl, Nat.le_refl _⟩
    · obtain ⟨h1, h2⟩ := ih _ h
      exact ⟨h1, by omega⟩

theorem tagPage_pairwise (i j : Nat) (p : List α) :
    (tagPage i j p).Pairwise (fun x y => discoveryLT x.1 y.1) := by
  induction p generalizing j with
  | nil => exact List.Pairwise.nil
  | cons a as ih =>
    rw [tagPage]
    refine List.Pairwise.cons ?_ (ih _)
    intro y hy
    obtain ⟨h1, h2⟩ := mem_tagPage i (j + 1) as hy
    exact Or.inr ⟨h1.symm, by show j < y.1.2; omega⟩

theorem mem_tagPages {q : List ((Nat × Nat) × α)} (i : Nat)
    (ps : List (List α)) (hq : q ∈ tagPages i ps) :
    ∀ x ∈ q, i ≤ x.1.1 := by
  induction ps generalizing i with
  | nil => simp [tagPages] at hq
  | cons p pss ih =>
    rw [tagPages] at hq
    rcases List.mem_cons.mp hq with h | h
    · subst h
      intro x hx
      exact (mem_tagPage i 0 p hx).1 ▸ Nat.le_refl _
    · intro x hx
      exact Nat.le_of_succ_le (ih (i + 1) h x hx)

theorem tagPages_flatten_pairwise (i : Nat) (ps : List (List α)) :
    (tagPages i ps).flatten.Pairwise (fun x y => discoveryLT x.1 y.1) := by
  induction ps generalizing i with
  | nil => exact List.Pairwise.nil
  | cons p pss ih =>
    rw [tagPages, List.flatten_cons]
    rw [List.pairwise_append]
    refine ⟨tagPage_pairwise i 0 p, ih (i + 1), ?_⟩
    intro x hx y hy
    have hxi : x.1.1 = i := (mem_tagPage i 0 p hx).1
    have hyi : i + 1 ≤ y.1.1 := by
      obtain ⟨q, hq, hyq⟩ := List.mem_flatten.mp hy
      exact mem_tagPages (i + 1) pss hq y hyq
    exact Or.inl (by omega)

theorem sublist_flatten {l₁ l₂ : List (List α)} (h : List.Sublist l₁ l₂) :
    List.Sublist l₁.flatten l₂.flatten := by
  induction h with
  | slnil => exact List.Sublist.refl _
  | cons a _ ih =>
    rw [List.flatten_cons]
    exact ih.trans (List.sublist_append_right a _)
  | cons₂ a _ ih =>
    rw [List.flatten_cons, List.flatten_cons]
    exact ih.append_left a

/-- C9 --- Order preservation: tag every record with its (page, in-page
position) discovery coordinates; the pagination loop's output carries its tags
in strictly increasing — in particular non-decreasing — discovery order:
records of page `n` precede records of page `n + 1`, and within one page
records keep document order (`job_list.extend(jobs[...])` in InfoJobs line 54,
the in-order `append` loop in ProfessionHU lines 61-64). -/
theorem crawl_preserves_discovery_order (pages : List (List α)) (wanted : Nat) :
    ((crawlLoop wanted (tagPages 0 pages) []).map Prod.fst).Pairwise
      discoveryLE := by
  rw [crawlLoop_eq_take_flatten]
  have h1 : List.Sublist ((tagPages 0 pages).takeWhile (fun p => !p.isEmpty))
      (tagPages 0 pages) := List.takeWhile_sublist _
  have h2 : List.Sublist
      ((tagPages 0 pages).takeWhile (fun p => !p.isEmpty)).flatten
      (tagPages 0 pages).flatten := sublist_flatten h1
  have h3 : List.Sublist
      ((((tagPages 0 pages).takeWhile (fun p => !p.isEmpty)).flatten).take
        wanted)
      (tagPages 0 pages).flatten :=
    (List.take_sublist wanted _).trans h2
  have hpw := (tagPages_flatten_pairwise 0 pages).sublist h3
  rw [List.pairwise_map]
  refine hpw.imp ?_
  intro a b hab
  rcases hab with h | ⟨h1', h2'⟩
  · exact Or.inl h
  · exact Or.inr ⟨h1', Nat.le_of_lt h2'⟩

/-- The job identifier minted by `InfoJobsScraper._extract_job_info` line 112:
`job_id = f"infojobs-{abs(hash(job_url))}"`, with `hash` CPython's salted
string hash (modelled by `pyHash` applied to the process hash seed). The
ProfessionHU (line 132), Arbetsformedlingen (line 210), PosaoHR (line 111) and
Upwork (line 155) scrapers mint their identifiers by the same pattern. -/
def infoJobsJobId (seed : Nat) (job_url : String) : String :=
  "infojobs-" ++ toString (pyHash seed job_url)

/-- C1 --- The identifier is not a pure function of the URL across processes:
two runs whose CPython hash seeds differ (the default, since `PYTHONHASHSEED`
is randomized per process) assign different identifiers to the same canonical
detail URL, while within one process (one seed) the identifier is determined
by the URL alone. This contradicts the claimed run-independence; the spec's
design notes (§9) themselves flag the hash-based identifier as a latent bug of
the source. -/
theorem job_id_depends_on_process_seed :
    (infoJobsJobId 0 "https://www.infojobs.net/of-1"
      == infoJobsJobId 1 "https://www.infojobs.net/of-1") = false ∧
    (∀ seed url, infoJobsJobId seed url = infoJobsJobId seed url) :=
  ⟨by decide, fun _ _ => rfl⟩

/-- The whitespace class used by `PracujPLScraper._clean_text`: Python's
`str.strip()` / regex `\s` on the ASCII range (space, tab, newline, carriage
return, vertical tab, form feed). The non-breaking space `\xa0` is replaced by
a plain space before stripping (line 314 of the Pracuj module), so it never
reaches the strip/collapse steps. -/
def pyIsSpace (c : Char) : Bool :=
  c = ' ' || c = '\t' || c = '\n' || c = '\r' || c = Char.ofNat 11 ||
    c = Char.ofNat 12

/-- `text.replace('\xa0', ' ')` (Pracuj line 314). -/
def replaceNbsp (l : List Char) : List Char :=
  l.map fun c => if c = Char.ofNat 160 then ' ' else c

/-- Python `str.strip()`: drop leading and trailing whitespace. -/
def pyStrip (l : List Char) : List Char :=
  ((l.dropWhile pyIsSpace).reverse.dropWhile pyIsSpace).reverse

/-- `re.sub(r'\s+', ' ', text)` (Pracuj line 316): every maximal run of
whitespace characters is replaced by a single space. The flag records whether
the previous character belonged to a whitespace run. -/
def collapseWs : Bool → List Char → List Char
  | _, [] => []
  | prev, c :: cs =>
    if pyIsSpace c then
      if prev then collapseWs true cs else ' ' :: collapseWs true cs
    else c :: collapseWs false cs

/-- Character-list body of `PracujPLScraper._clean_text` (lines 309-316):
`text = text.replace('\xa0', ' ').strip();
return re.sub(r'\s+', ' ', text.strip())`. -/
def cleanTextL (l : List Char) : List Char :=
  collapseWs false (pyStrip (pyStrip (replaceNbsp l)))

/-- `PracujPLScraper._clean_text`. `None` and the empty string are both falsy,
so `if not text: return ""` maps them to the empty string. -/
def PracujPLScraper.cleanText : Option String → String
  | none => ""
  | some s => if s = "" then "" else String.mk (cleanTextL s.data)

theorem head?_dropWhile_not {p : α → Bool} {l : List α} {h : α}
    (hh : (l.dropWhile p).head? = some h) : p h = false := by
  induction l with
  | nil => simp [List.dropWhile] at hh
  | cons a as ih =>
    rw [List.dropWhile_cons] at hh
    by_cases hp : p a
    · rw [if_pos hp] at hh
      exact ih hh
    · rw [if_neg hp] at hh
      simp only [List.head?_cons, Option.some_inj] at hh
      subst hh
      exact Bool.not_eq_true _ |>.mp hp

theorem dropWhile_eq_self_of_head {p : α → Bool} {l : List α}
    (h : ∀ x, l.head? = some x → p x = false) : l.dropWhile p = l := by
  cases l with
  | nil => rfl
  | cons a as =>
    rw [List.dropWhile_cons, if_neg]
    simp [h a rfl]

theorem exists_suffix_dropTrailing (p : α → Bool) (l : List α) :
    ∃ t, (l.reverse.dropWhile p).reverse ++ t = l := by
  refine ⟨(l.reverse.takeWhile p).reverse, ?_⟩
  rw [← List.reverse_append, List.takeWhile_append_dropWhile,
    List.reverse_reverse]

theorem pyStrip_head {l : List Char} {h : Char}
    (hh : (pyStrip l).head? = some h) : pyIsSpace h = false := by
  rw [pyStrip] at hh
  obtain ⟨t, ht⟩ := exists_suffix_dropTrailing pyIsSpace
    (l.dropWhile pyIsSpace)
  have hne : ((l.dropWhile pyIsSpace).reverse.dropWhile
      pyIsSpace).reverse ≠ [] := by
    intro hnil
    rw [hnil] at hh
    simp at hh
  have : (l.dropWhile pyIsSpace).head? = some h := by
    rw [← ht, List.head?_append_of_ne_nil _ hne]
    exact hh
  exact head?_dropWhile_not this

theorem pyStrip_getLast {l : List Char} {h : Char}
    (hh : (pyStrip l).getLast? = some h) : pyIsSpace h = false := by
  rw [pyStrip, List.getLast?_reverse] at hh
  exact head?_dropWhile_not hh

theorem mem_pyStrip {l : List Char} {c : Char} (hc : c ∈ pyStrip l) :
    c ∈ l := by
  rw [pyStrip] at hc
  rw [List.mem_reverse] at hc
  have h1 := (List.dropWhile_sublist (l := (l.dropWhile pyIsSpace).reverse)
    (p := pyIsSpace)).mem hc
  rw [List.mem_reverse] at h1
  exact (List.dropWhile_sublist (l := l) (p := pyIsSpace)).mem h1

theorem collapseWs_head_true {l : List Char} {h : Char}
    (hh : (collapseWs true l).head? = some h) : pyIsSpace h = false := by
  induction l with
  | nil => simp [collapseWs] at hh
  | cons c cs ih =>
    by_cases hc : pyIsSpace c
    · rw [show collapseWs true (c :: cs)
          = if pyIsSpace c then collapseWs true cs
            else c :: collapseWs false cs from rfl, if_pos hc] at hh
      exact ih hh
    · rw [show collapseWs true (c :: cs)
          = if pyIsSpace c then collapseWs true cs
            else c :: collapseWs false cs from rfl, if_neg hc] at hh
      simp only [List.head?_cons, Option.some_inj] at hh
      subst hh
      exact Bool.not_eq_true _ |>.mp hc

theorem collapseWs_chain (l : List Char) (prev : Bool) :
    (collapseWs prev l).Chain'
      (fun a b => pyIsSpace a = false ∨ pyIsSpace b = false) := by
  induction l generalizing prev with
  | nil => exact List.chain'_nil
  | cons c cs ih =>
    by_cases hc : pyIsSpace c
    · cases prev with
      | true =>
        rw [show collapseWs true (c :: cs)
            = if pyIsSpace c then collapseWs true cs
              else c :: collapseWs false cs from rfl, if_pos hc]
        exact ih true
      | false =>
        rw [show collapseWs false (c :: cs)
            = if pyIsSpace c then ' ' :: collapseWs true cs
              else c :: collapseWs false cs from rfl, if_pos hc]
        rw [List.chain'_cons']
        refine ⟨?_, ih true⟩
        intro y hy
        exact Or.inr (collapseWs_head_true hy)
    · have step : ∀ pr, collapseWs pr (c :: cs) = c :: collapseWs false cs := by
        intro pr
        cases pr <;> simp [collapseWs, hc]
      rw [step]
      rw [List.chain'_cons']
      refine ⟨?_, ih false⟩
      intro y hy
      exact Or.inl (Bool.not_eq_true _ |>.mp hc)

theorem collapseWs_spaces {l : List Char} {c : Char} (prev : Bool)
    (hc : c ∈ collapseWs prev l) (hs : pyIsSpace c = true) : c = ' ' := by
  induction l generalizing prev with
  | nil => simp [collapseWs] at hc
  | cons d ds ih =>
    by_cases hd : pyIsSpace d
    · cases prev with
      | true =>
        rw [show collapseWs true (d :: ds)
            = if pyIsSpace d then collapseWs true ds
              else d :: collapseWs false ds from rfl, if_pos hd] at hc
        exact ih true hc
      | false =>
        rw [show collapseWs false (d :: ds)
            = if pyIsSpace d then ' ' :: collapseWs true ds
              else d :: collapseWs false ds from rfl, if_pos hd] at hc
        rcases List.mem_cons.mp hc with h | h
        · exact h
        · exact ih true h
    · have step : collapseWs prev (d :: ds) = d :: collapseWs false ds := by
        cases prev <;> simp [collapseWs, hd]
      rw [step] at hc
      rcases List.mem_cons.mp hc with h | h
      · subst h
        exact absurd hs hd
      · exact ih false h

theorem mem_collapseWs {l : List Char} {c : Char} (prev : Bool)
    (hc : c ∈ collapseWs prev l) : c = ' ' ∨ c ∈ l := by
  induction l generalizing prev with
  | nil => simp [collapseWs] at hc
  | cons d ds ih =>
    by_cases hd : pyIsSpace d
    · cases prev with
      | true =>
        rw [show collapseWs true (d :: ds)
            = if pyIsSpace d then collapseWs true ds
              else d :: collapseWs false ds from rfl, if_pos hd] at hc
        rcases ih true hc with h | h
        · exact Or.inl h
        · exact Or.inr (List.mem_cons_of_mem d h)
      | false =>
        rw [show collapseWs false (d :: ds)
            = if pyIsSpace d then ' ' :: collapseWs true ds
              else d :: collapseWs false ds from rfl, if_pos hd] at hc
        rcases List.mem_cons.mp hc with h | h
        · exact Or.inl h
        · rcases ih true h with h2 | h2
          · exact Or.inl h2
          · exact Or.inr (List.mem_cons_of_mem d h2)
    · have step : collapseWs prev (d :: ds) = d :: collapseWs false ds := by
        cases prev <;> simp [collapseWs, hd]
      rw [step] at hc
      rcases List.mem_cons.mp hc with h | h
      · exact Or.inr (h ▸ List.mem_cons_self d ds)
      · rcases ih false h with h2 | h2
        · exact Or.inl h2
        · exact Or.inr (List.mem_cons_of_mem d h2)

theorem collapseWs_ne_nil {l : List Char} {c : Char} (prev : Bool)
    (hc : c ∈ l) (hs : pyIsSpace c = false) : collapseWs prev l ≠ [] := by
  induction l generalizing prev with
  | nil => simp at hc
  | cons d ds ih =>
    by_cases hd : pyIsSpace d
    · have hcd : c ∈ ds := by
        rcases List.mem_cons.mp hc with h | h
        · subst h; rw [hd] at hs; exact absurd hs (by simp)
        · exact h
      cases prev with
      | true =>
        rw [show collapseWs true (d :: ds)
            = if pyIsSpace d then collapseWs true ds
              else d :: collapseWs false ds from rfl, if_pos hd]
        exact ih true hcd
      | false =>
        rw [show collapseWs false (d :: ds)
            = if pyIsSpace d then ' ' :: collapseWs true ds
              else d :: collapseWs false ds from rfl, if_pos hd]
        simp
    · have step : collapseWs prev (d :: ds) = d :: collapseWs false ds := by
        cases prev <;> simp [collapseWs, hd]
      rw [step]
      simp

theorem collapseWs_head_false {l : List Char}
    (hl : ∀ x, l.head? = some x → pyIsSpace x = false) :
    ∀ h, (collapseWs false l).head? = some h → pyIsSpace h = false := by
  cases l with
  | nil => intro h hh; simp [collapseWs] at hh
  | cons c cs =>
    have hc : pyIsSpace c = false := hl c rfl
    intro h hh
    rw [show collapseWs false (c :: cs)
        = if pyIsSpace c then ' ' :: collapseWs true cs
          else c :: collapseWs false cs from rfl, hc] at hh
    simp only [Bool.false_eq_true, if_false, List.head?_cons,
      Option.some_inj] at hh
    subst hh
    exact hc

theorem collapseWs_getLast :
    ∀ (l : List Char) (prev : Bool),
      (∀ x, l.getLast? = some x → pyIsSpace x = false) →
      ∀ h, (collapseWs prev l).getLast? = some h → pyIsSpace h = false := by
  intro l
  induction l with
  | nil => intro prev _ h hh; simp [collapseWs] at hh
  | cons d ds ih =>
    intro prev hlast h hh
    cases ds with
    | nil =>
      have hd : pyIsSpace d = false := hlast d rfl
      rw [show collapseWs prev [d]
          = if pyIsSpace d then
              (if prev then collapseWs true []
               else ' ' :: collapseWs true [])
            else d :: collapseWs false [] from by cases prev <;> rfl,
        hd] at hh
      simp only [Bool.false_eq_true, if_false] at hh
      rw [show collapseWs false ([] : List Char) = [] from rfl] at hh
      simp only [List.getLast?_singleton, Option.some_inj] at hh
      subst hh
      exact hd
    | cons e es =>
      have htail : ∀ x, (e :: es).getLast? = some x → pyIsSpace x = false := by
        intro x hx
        exact hlast x (by rw [List.getLast?_cons_cons]; exact hx)
      obtain ⟨g, hg⟩ : ∃ g, (e :: es).getLast? = some g :=
        ⟨(e :: es).getLast (by simp), List.getLast?_eq_getLast_of_ne_nil _⟩
      have hgns : pyIsSpace g = false := htail g hg
      have hgmem : g ∈ e :: es := by
        obtain ⟨hne, hgl⟩ := List.mem_getLast?_eq_getLast hg
        exact hgl ▸ List.getLast_mem hne
      have hnonnil : ∀ pr, collapseWs pr (e :: es) ≠ [] :=
        fun pr => collapseWs_ne_nil pr hgmem hgns
      by_cases hd : pyIsSpace d
      · cases prev with
        | true =>
          rw [show collapseWs true (d :: e :: es)
              = if pyIsSpace d then collapseWs true (e :: es)
                else d :: collapseWs false (e :: es) from rfl,
            if_pos hd] at hh
          exact ih true htail h hh
        | false =>
          rw [show collapseWs false (d :: e :: es)
              = if pyIsSpace d then ' ' :: collapseWs true (e :: es)
                else d :: collapseWs false (e :: es) from rfl,
            if_pos hd] at hh
          obtain ⟨x, xs, hxx⟩ := List.exists_cons_of_ne_nil (hnonnil true)
          rw [hxx, List.getLast?_cons_cons] at hh
          exact ih true htail h (by rw [hxx]; exact hh)
      · have hdf : pyIsSpace d = false := Bool.not_eq_true _ |>.mp hd
        rw [show collapseWs prev (d :: e :: es)
            = if pyIsSpace d then
                (if prev then collapseWs true (e :: es)
                 else ' ' :: collapseWs true (e :: es))
              else d :: collapseWs false (e :: es) from by
              cases prev <;> rfl, hdf] at hh
        simp only [Bool.false_eq_true, if_false] at hh
        obtain ⟨x, xs, hxx⟩ := List.exists_cons_of_ne_nil (hnonnil false)
        rw [hxx, List.getLast?_cons_cons] at hh
        exact ih false htail h (by rw [hxx]; exact hh)

theorem replaceNbsp_eq_self {l : List Char}
    (h : ∀ c ∈ l, ¬ c = Char.ofNat 160) : replaceNbsp l = l := by
  induction l with
  | nil => rfl
  | cons c cs ih =>
    rw [replaceNbsp, List.map_cons]
    rw [if_neg (h c (List.mem_cons_self c cs))]
    have := ih fun d hd => h d (List.mem_cons_of_mem c hd)
    rw [replaceNbsp] at this
    rw [this]

theorem mem_replaceNbsp {l : List Char} {c : Char} (hc : c ∈ replaceNbsp l) :
    ¬ c = Char.ofNat 160 := by
  rw [replaceNbsp, List.mem_map] at hc
  obtain ⟨d, _, hd⟩ := hc
  by_cases hdn : d = Char.ofNat 160
  · rw [if_pos hdn] at hd
    subst hd
    decide
  · rw [if_neg hdn] at hd
    subst hd
    exact hdn

theorem pyStrip_eq_self {l : List Char}
    (hh : ∀ x, l.head? = some x → pyIsSpace x = false)
    (hl : ∀ x, l.getLast? = some x → pyIsSpace x = false) :
    pyStrip l = l := by
  rw [pyStrip, dropWhile_eq_self_of_head hh]
  rw [dropWhile_eq_self_of_head (fun x hx => hl x (by
    rw [List.head?_reverse] at hx; exact hx))]
  exact List.reverse_reverse l

theorem collapseWs_eq_self :
    ∀ (l : List Char),
      (∀ c ∈ l, pyIsSpace c = true → c = ' ') →
      l.Chain' (fun a b => pyIsSpace a = false ∨ pyIsSpace b = false) →
      ∀ prev, (prev = true → ∀ x, l.head? = some x → pyIsSpace x = false) →
      collapseWs prev l = l := by
  intro l
  induction l with
  | nil => intro _ _ prev _; cases prev <;> rfl
  | cons c cs ih =>
    intro hsp hch prev hprev
    obtain ⟨hhead, htail⟩ := List.chain'_cons'.mp hch
    by_cases hc : pyIsSpace c
    · have hcsp : c = ' ' := hsp c (List.mem_cons_self c cs) hc
      cases prev with
      | true => exact absurd (hprev rfl c rfl) (by simp [hc])
      | false =>
        rw [show collapseWs false (c :: cs)
            = if pyIsSpace c then ' ' :: collapseWs true cs
              else c :: collapseWs false cs from rfl, if_pos hc]
        have hcs : collapseWs true cs = cs := by
          apply ih (fun d hd => hsp d (List.mem_cons_of_mem c hd)) htail
          intro _ x hx
          rcases hhead x hx with h | h
          · rw [hc] at h; exact absurd h (by simp)
          · exact h
        rw [hcs, hcsp]
    · have hcf : pyIsSpace c = false := Bool.not_eq_true _ |>.mp hc
      rw [show collapseWs prev (c :: cs)
          = if pyIsSpace c then
              (if prev then collapseWs true cs else ' ' :: collapseWs true cs)
            else c :: collapseWs false cs from by cases prev <;> rfl, hcf]
      simp only [Bool.false_eq_true, if_false]
      rw [ih (fun d hd => hsp d (List.mem_cons_of_mem c hd)) htail false
        (by intro h; exact absurd h (by simp))]

theorem cleanTextL_head {l : List Char} :
    ∀ h, (cleanTextL l).head? = some h → pyIsSpace h = false :=
  collapseWs_head_false fun _ hx => pyStrip_head hx

theorem cleanTextL_getLast {l : List Char} :
    ∀ h, (cleanTextL l).getLast? = some h → pyIsSpace h = false :=
  collapseWs_getLast _ false fun _ hx => pyStrip_getLast hx

theorem cleanTextL_chain (l : List Char) :
    (cleanTextL l).Chain'
      (fun a b => pyIsSpace a = false ∨ pyIsSpace b = false) :=
  collapseWs_chain _ false

theorem cleanTextL_spaces {l : List Char} {c : Char} (hc : c ∈ cleanTextL l)
    (hs : pyIsSpace c = true) : c = ' ' :=
  collapseWs_spaces false hc hs

theorem cleanTextL_no_nbsp {l : List Char} {c : Char} (hc : c ∈ cleanTextL l) :
    ¬ c = Char.ofNat 160 := by
  rcases mem_collapseWs false hc with h | h
  · subst h; decide
  · exact mem_replaceNbsp (mem_pyStrip (mem_pyStrip h))

theorem cleanTextL_idem (l : List Char) :
    cleanTextL (cleanTextL l) = cleanTextL l := by
  have h1 : replaceNbsp (cleanTextL l) = cleanTextL l :=
    replaceNbsp_eq_self fun c hc => cleanTextL_no_nbsp hc
  have h2 : pyStrip (cleanTextL l) = cleanTextL l :=
    pyStrip_eq_self (fun x hx => cleanTextL_head x hx)
      (fun x hx => cleanTextL_getLast x hx)
  have h3 : collapseWs false (cleanTextL l) = cleanTextL l :=
    collapseWs_eq_self _ (fun c hc hs => cleanTextL_spaces hc hs)
      (cleanTextL_chain l) false (by intro h; exact absurd h (by simp))
  rw [show cleanTextL (cleanTextL l)
      = collapseWs false (pyStrip (pyStrip (replaceNbsp (cleanTextL l))))
      from rfl, h1, h2, h2, h3]

theorem cleanText_idem (x : Option String) :
    PracujPLScraper.cleanText (some (PracujPLScraper.cleanText x))
      = PracujPLScraper.cleanText x := by
  cases x with
  | none =>
    rfl
  | some s =>
    by_cases hs : s = ""
    · subst hs
      rfl
    · rw [show PracujPLScraper.cleanText (some s)
          = if s = "" then "" else String.mk (cleanTextL s.data) from rfl,
        if_neg hs]
      by_cases hm : cleanTextL s.data = []
      · rw [hm]
        rfl
      · have hne : String.mk (cleanTextL s.data) ≠ "" := by
          intro hcontra
          rw [show ("" : String) = String.mk [] from rfl] at hcontra
          exact hm (by injection hcontra)
        rw [show PracujPLScraper.cleanText (some (String.mk (cleanTextL s.data)))
            = if String.mk (cleanTextL s.data) = "" then ""
              else String.mk (cleanTextL (String.mk (cleanTextL s.data)).data)
            from rfl, if_neg hne]
        rw [show (String.mk (cleanTextL s.data)).data = cleanTextL s.data
          from rfl]
        rw [cleanTextL_idem]

/-- C10 --- `PracujPLScraper._clean_text` is total and idempotent: `None` and
the empty string map to `""`; every output has no leading and no trailing
whitespace character, never two consecutive whitespace characters (each
whitespace run is collapsed to one plain space, so any whitespace surviving in
the output is the single space character), contains no non-breaking space; and
applying the function to its own output returns the output unchanged. -/
theorem clean_text_total_idempotent (x : Option String) :
    PracujPLScraper.cleanText none = "" ∧
    PracujPLScraper.cleanText (some "") = "" ∧
    (∀ h, (PracujPLScraper.cleanText x).data.head? = some h →
      pyIsSpace h = false) ∧
    (∀ h, (PracujPLScraper.cleanText x).data.getLast? = some h →
      pyIsSpace h = false) ∧
    (PracujPLScraper.cleanText x).data.Chain'
      (fun a b => pyIsSpace a = false ∨ pyIsSpace b = false) ∧
    (∀ c ∈ (PracujPLScraper.cleanText x).data,
      pyIsSpace c = true → c = ' ') ∧
    (∀ c ∈ (PracujPLScraper.cleanText x).data, ¬ c = Char.ofNat 160) ∧
    PracujPLScraper.cleanText (some (PracujPLScraper.cleanText x))
      = PracujPLScraper.cleanText x := by
  have hdata : (PracujPLScraper.cleanText x).data = []
      ∨ ∃ s, s ≠ "" ∧ x = some s
        ∧ (PracujPLScraper.cleanText x).data = cleanTextL s.data := by
    cases x with
    | none => exact Or.inl rfl
    | some s =>
      by_cases hs : s = ""
      · subst hs; exact Or.inl rfl
      · refine Or.inr ⟨s, hs, rfl, ?_⟩
        rw [show PracujPLScraper.cleanText (some s)
            = if s = "" then "" else String.mk (cleanTextL s.data) from rfl,
          if_neg hs]
  refine ⟨rfl, rfl, ?_, ?_, ?_, ?_, ?_, cleanText_idem x⟩
  all_goals rcases hdata with hnil | ⟨s, hs, hx, hdat⟩
  · intro h hh; rw [hnil] at hh; simp at hh
  · rw [hdat]; exact fun h hh => cleanTextL_head h hh
  · intro h hh; rw [hnil] at hh; simp at hh
  · rw [hdat]; exact fun h hh => cleanTextL_getLast h hh
  · rw [hnil]; exact List.chain'_nil
  · rw [hdat]; exact cleanTextL_chain s.data
  · intro c hc; rw [hnil] at hc; simp at hc
  · rw [hdat]; exact fun c hc hsp => cleanTextL_spaces hc hsp
  · intro c hc; rw [hnil] at hc; simp at hc
  · rw [hdat]; exact fun c hc => cleanTextL_no_nbsp hc

/-- Witness for `clean_text_total_idempotent` at a concrete input: the cleaned
form of a string with padding, a non-breaking space and an inner run of
whitespace starts with a non-space character. -/
theorem clean_text_total_idempotent_witness :
    pyIsSpace 'D' = false :=
  (clean_text_total_idempotent
    (some "  D e v\t\n ")).2.2.1 'D' rfl

/-- Model of CPython `random.uniform(a, b)`: `a + (b - a) * random()`, with the
underlying uniform source `random()` drawing `r` from the unit interval. -/
def randomUniform (a b r : ℚ) : ℚ := a + (b - a) * r

/-- The scraper class attribute `delay = 2` (InfoJobs line 26, Pracuj line 27,
ProfessionHU line 25, Arbetsformedlingen line 25, PosaoHR line 25). -/
def scraperDelay : ℚ := 2

/-- The scraper class attribute `band_delay = 3` (InfoJobs line 27, Pracuj
line 28, ProfessionHU line 26, Arbetsformedlingen line 26, PosaoHR line 26). -/
def scraperBandDelay : ℚ := 3

/-- The inter-page pacing draw
`random.uniform(self.delay, self.delay + self.band_delay)` (InfoJobs line 56,
Pracuj line 94, ProfessionHU line 68, Arbetsformedlingen line 266, PosaoHR
line 54), as a function of the uniform source value `r`. -/
def pacingDelay (r : ℚ) : ℚ :=
  randomUniform scraperDelay (scraperDelay + scraperBandDelay) r

/-- C7 --- Pacing: with defaults `delay = 2` and `band_delay = 3`, the delay
slept between consecutive listing-page fetches is the affine image
`2 + 3 * r` of the uniform source value `r ∈ [0, 1]` (so the draw is uniform
on `[base, base + band]`), and it is always at least the base delay of 2 and
at most 5 seconds. -/
theorem pacing_delay_uniform_and_bounded (r : ℚ) (h0 : 0 ≤ r) (h1 : r ≤ 1) :
    scraperDelay = 2 ∧ scraperBandDelay = 3 ∧
    pacingDelay r = 2 + 3 * r ∧
    scraperDelay ≤ pacingDelay r ∧
    pacingDelay r ≤ scraperDelay + scraperBandDelay := by
  have heq : pacingDelay r = 2 + 3 * r := by
    rw [pacingDelay, randomUniform, scraperDelay, scraperBandDelay]
    ring
  refine ⟨rfl, rfl, heq, ?_, ?_⟩
  · rw [heq, scraperDelay]
    nlinarith
  · rw [heq, scraperDelay, scraperBandDelay]
    nlinarith

/-- Witness for `pacing_delay_uniform_and_bounded` at the concrete source
value `r = 1/2`: the slept delay is at least the base delay. -/
theorem pacing_delay_uniform_and_bounded_witness :
    scraperDelay ≤ pacingDelay (1 / 2) :=
  (pacing_delay_uniform_and_bounded (1 / 2) (by norm_num) (by norm_num)).2.2.2.1

/-- Model of Python `str.startswith`, via the underlying character lists
(pattern first). -/
def startsL : List Char → List Char → Bool
  | [], _ => true
  | _ :: _, [] => false
  | p :: ps, c :: cs => p = c && startsL ps cs

/-- Python `s.startswith(pre)`. -/
def pyStartsWith (s pre : String) : Bool := startsL pre.data s.data

/-- A URL in absolute form: it carries an explicit http or https scheme. -/
def isAbsUrl (s : String) : Bool :=
  pyStartsWith s "http://" || pyStartsWith s "https://"

/-- Python `str.strip()` at string level. -/
def stripStr (s : String) : String := String.mk (pyStrip s.data)

theorem startsL_append {p a : List Char} (h : startsL p a = true)
    (b : List Char) : startsL p (a ++ b) = true := by
  induction p generalizing a with
  | nil => rfl
  | cons x xs ih =>
    cases a with
    | nil => simp [startsL] at h
    | cons c cs =>
      rw [List.cons_append]
      rw [show startsL (x :: xs) (c :: cs) = (decide (x = c) && startsL xs cs)
        from rfl] at h
      rw [show startsL (x :: xs) (c :: (cs ++ b))
          = (decide (x = c) && startsL xs (cs ++ b)) from rfl]
      obtain ⟨h1, h2⟩ := Bool.and_eq_true_iff.mp h
      rw [h1, ih h2]
      rfl

theorem pyStartsWith_append {s p : String} (h : pyStartsWith s p = true)
    (t : String) : pyStartsWith (s ++ t) p = true := by
  rw [pyStartsWith, String.data_append]
  exact startsL_append h t.data

theorem isAbsUrl_append {s : String} (h : isAbsUrl s = true) (t : String) :
    isAbsUrl (s ++ t) = true := by
  rw [isAbsUrl] at h ⊢
  rcases Bool.or_eq_true_iff.mp h with h1 | h1
  · rw [pyStartsWith_append h1]
    rfl
  · rw [pyStartsWith_append h1]
    simp

/-- Scans for the first `://` of a URL; returns the part up to and including
it, and the remainder. -/
def findSchemeSplit : List Char → Option (List Char × List Char)
  | [] => none
  | ':' :: '/' :: '/' :: rest => some ([':', '/', '/'], rest)
  | c :: cs => (findSchemeSplit cs).map fun pr => (c :: pr.1, pr.2)

/-- The `scheme://host` part of a URL (empty when the URL has no scheme). -/
def schemeHost (b : String) : String :=
  match findSchemeSplit b.data with
  | some pr => String.mk (pr.1 ++ pr.2.takeWhile (fun c => !(c = '/')))
  | none => ""

/-- Keeps everything up to and including the last `/` (empty when there is no
slash). -/
def dropAfterLastSlash : List Char → List Char
  | [] => []
  | c :: cs =>
    if '/' ∈ cs then c :: dropAfterLastSlash cs
    else if c = '/' then ['/'] else []

/-- The base URL truncated after its last path segment. -/
def dropLastSegment (b : String) : String := String.mk (dropAfterLastSlash b.data)

/-- A character allowed after the first position of a URL scheme, per
`urllib.parse`: a letter, a digit, `+`, `-` or `.`. -/
def isSchemeChar (c : Char) : Bool :=
  c.isAlpha || c.isDigit || c = '+' || c = '-' || c = '.'

/-- Scans the tail of a candidate scheme: further scheme characters followed
by the `:` delimiter. -/
def schemeScan : List Char → Bool
  | [] => false
  | c :: cs => if c = ':' then true else isSchemeChar c && schemeScan cs

/-- Whether a reference carries an explicit scheme (`scheme:` with a
letter-initial scheme name before the first `:`), as `urllib.parse.urlparse`
recognizes one — e.g. `mailto:x@y`, `javascript:void(0)`, `tel:123`. -/
def hasExplicitScheme (s : String) : Bool :=
  match s.data with
  | [] => false
  | c :: cs => c.isAlpha && schemeScan cs

/-- Model of `urllib.parse.urljoin(base, rel)` (used by
`PracujPLScraper._extract_job_info` line 286), restricted to the reference
shapes occurring in the scraped pages: the empty reference, an absolute
http(s) URL, a reference with an explicit foreign scheme (`mailto:`,
`javascript:`, …) which `urljoin` returns unchanged because its scheme
differs from the base's, a root-relative reference starting with `/`, and a
plain path-relative reference. Scheme-relative (`//host`), query-only,
fragment-only and dot-segment references, and same-scheme references without
the `//` authority marker (`https:foo`), are outside the model. -/
def urljoin (base rel : String) : String :=
  if rel = "" then base
  else if pyStartsWith rel "http://" || pyStartsWith rel "https://" then rel
  else if hasExplicitScheme rel then rel
  else if pyStartsWith rel "/" then schemeHost base ++ rel
  else dropLastSegment base ++ rel

/-- `InfoJobsScraper.base_url` (line 25). -/
def InfoJobsScraper.base_url : String := "https://www.infojobs.net"

/-- The `a.js-o-link` title element of an InfoJobs card: its inner text and
its optional `href` attribute. -/
structure InfoJobsTitleEl where
  text : String
  href : Option String
deriving DecidableEq, Repr

/-- The query results `InfoJobsScraper._extract_job_info` reads from one
`article.js-job-card` element: the optional title link, the optional company
span text, the optional location span text. -/
structure InfoJobsCard where
  titleEl : Option InfoJobsTitleEl
  companyEl : Option String
  locationEl : Option String
deriving DecidableEq, Repr

/-- InfoJobs line 104:
`job_url = href if href and href.startswith("http") else f"{self.base_url}{href}"`.
A missing `href` is formatted by the f-string as the text `None`; an empty
`href` is falsy and is appended verbatim. -/
def infoJobsJobUrl : Option String → String
  | some h =>
    if !(h = "") && pyStartsWith h "http" then h
    else InfoJobsScraper.base_url ++ h
  | none => InfoJobsScraper.base_url ++ "None"

/-- `InfoJobsScraper._extract_job_info` (lines 99-124): title, href, URL,
company with fallback `"Unknown"`, location with fallback `"Spain"`, hash
identifier, record assembly. No text field is stripped or cleaned. The
`seed` argument is the process hash seed consumed by `hash(job_url)`. -/
def InfoJobsScraper.extractJobInfo (seed : Nat) (card : InfoJobsCard) :
    Option JobPost :=
  let title := card.titleEl.map InfoJobsTitleEl.text
  let href := card.titleEl.bind InfoJobsTitleEl.href
  let job_url := infoJobsJobUrl href
  let company := card.companyEl.getD "Unknown"
  let location := card.locationEl.getD "Spain"
  some ⟨infoJobsJobId seed job_url, title, some company,
    ⟨some location, none, Country.from_string "Spain"⟩, job_url, none⟩

/-- `ProfessionHUScraper.base_url` (line 24). -/
def ProfessionHUScraper.base_url : String := "https://www.profession.hu"

/-- The `.job-card__title a` element of a Profession.hu card. -/
structure ProfTitleEl where
  text : String
  href : Option String
deriving DecidableEq, Repr

/-- The query results `ProfessionHUScraper._extract_job_info` reads from one
`.job-card` element. -/
structure ProfCard where
  titleEl : Option ProfTitleEl
  companyEl : Option String
  locationEl : Option String
deriving DecidableEq, Repr

/-- `ProfessionHUScraper._extract_job_info` (lines 109-147): a missing title
element or a missing/empty `href` discards the card (`return None`); the URL
is the base URL concatenated with the relative href (line 118); company and
location are passed through as optional values with no placeholder; the
identifier is the hash identifier of the URL. -/
def ProfessionHUScraper.extractJobInfo (seed : Nat) (card : ProfCard) :
    Option JobPost :=
  match card.titleEl with
  | none => none
  | some t =>
    let jobUrl? : Option String :=
      match t.href with
      | some rel =>
        if rel = "" then none else some (ProfessionHUScraper.base_url ++ rel)
      | none => none
    match jobUrl? with
    | none => none
    | some u =>
      some ⟨"professionhu-" ++ toString (pyHash seed u), some t.text,
        card.companyEl, ⟨card.locationEl, none, Country.from_string "Hungary"⟩,
        u, none⟩

/-- An `a` link tag inside a Pracuj offer element: its text and optional
`href` attribute. -/
structure PracujLinkTag where
  text : String
  href : Option String
deriving DecidableEq, Repr

/-- The `h2[data-test=offer-title]` element of a Pracuj offer: its full text
and the optional `a` tag found inside it. -/
structure PracujPositionTag where
  text : String
  link : Option PracujLinkTag
deriving DecidableEq, Repr

/-- The query results `PracujPLScraper._extract_job_info` reads from one
offer element `div[data-test-offerid]`: the offer id attribute value, the
title tag, the company section (`some inner` when the section exists, with
`inner` the optional `h3` company-name text inside it), the logo image alt
text, the `h4` region text, the location list item text, and the direct
`a[data-test=link-offer]` tag (`some h` when the tag exists, with `h` its
optional href). -/
structure PracujOffer where
  offerId : Option String
  positionTag : Option PracujPositionTag
  companySection : Option (Option String)
  logoAlt : Option String
  locationTag : Option String
  locationListItem : Option String
  linkOffer : Option (Option String)
deriving DecidableEq, Repr

/-- Pracuj lines 242-246: the title comes from the `a` tag inside the title
`h2` when that tag exists and has non-empty text, otherwise from the `h2`
itself; both pass through `_clean_text`. -/
def pracujTitle (ptag : PracujPositionTag) : String :=
  match ptag.link with
  | some lt =>
    if !(lt.text = "") then PracujPLScraper.cleanText (some lt.text)
    else PracujPLScraper.cleanText (some ptag.text)
  | none => PracujPLScraper.cleanText (some ptag.text)

/-- Pracuj lines 253-264: company defaults to `"N/A"`; the company section's
`h3` text wins, else a non-empty logo alt text. -/
def pracujCompany (o : PracujOffer) : String :=
  match o.companySection with
  | some inner =>
    match inner with
    | some ctext => PracujPLScraper.cleanText (some ctext)
    | none => "N/A"
  | none =>
    match o.logoAlt with
    | some alt =>
      if alt = "" then "N/A" else PracujPLScraper.cleanText (some alt)
    | none => "N/A"

/-- Pracuj lines 266-275: location defaults to `"N/A"`; the `h4` region text
wins, else the location list item. -/
def pracujLocation (o : PracujOffer) : String :=
  match o.locationTag with
  | some ltext => PracujPLScraper.cleanText (some ltext)
  | none =>
    match o.locationListItem with
    | some litext => PracujPLScraper.cleanText (some litext)
    | none => "N/A"

/-- Pracuj lines 278-283: the link tag is the `a` inside the title `h2` when
present, else the direct offer link; the chosen tag's href (absent or empty
href is falsy). -/
def pracujLinkHref (o : PracujOffer) (ptag : PracujPositionTag) :
    Option String :=
  match ptag.link with
  | some lt => lt.href
  | none =>
    match o.linkOffer with
    | some h => h
    | none => none

/-- Pracuj lines 285-290: a truthy href is resolved against the page URL with
`urljoin`; otherwise the fallback URL `{base_url}/oferta/{offer_id}` is built
(the guard at line 231 has already ensured the offer id is truthy). -/
def pracujJobUrl (base oid : String) (href : Option String) : String :=
  match href with
  | some h => if h = "" then base ++ "/oferta/" ++ oid else urljoin base h
  | none => base ++ "/oferta/" ++ oid

/-- `PracujPLScraper._extract_job_info` (lines 226-307). The `seed` argument
is the process hash seed; it is consumed only in the dead branch of line 293
(`offer_id` is already known truthy there). -/
def PracujPLScraper.extractJobInfo (seed : Nat) (o : PracujOffer)
    (base : String) : Option JobPost :=
  match o.offerId with
  | none => none
  | some oid =>
    if oid = "" then none
    else
      match o.positionTag with
      | none => none
      | some ptag =>
        let title := pracujTitle ptag
        if title = "" || stripStr title = "" then none
        else
          let job_url := pracujJobUrl base oid (pracujLinkHref o ptag)
          let job_id :=
            if !(oid = "") then "pracujpl-" ++ oid
            else "pracujpl-" ++ toString (pyHash seed job_url)
          some ⟨job_id, some title, some (pracujCompany o),
            ⟨some (pracujLocation o), none, Country.from_string "Poland"⟩,
            job_url, none⟩

theorem pracujExtract_some {seed : Nat} {o : PracujOffer} {base : String}
    {r : JobPost}
    (h : PracujPLScraper.extractJobInfo seed o base = some r) :
    ∃ oid ptag, o.offerId = some oid ∧ ¬ oid = "" ∧
      o.positionTag = some ptag ∧
      ¬ pracujTitle ptag = "" ∧
      r = ⟨"pracujpl-" ++ oid, some (pracujTitle ptag),
        some (pracujCompany o),
        ⟨some (pracujLocation o), none, Country.from_string "Poland"⟩,
        pracujJobUrl base oid (pracujLinkHref o ptag), none⟩ := by
  cases hoid : o.offerId with
  | none => simp [PracujPLScraper.extractJobInfo, hoid] at h
  | some oid =>
    by_cases hoe : oid = ""
    · simp [PracujPLScraper.extractJobInfo, hoid, hoe] at h
    · cases hpt : o.positionTag with
      | none => simp [PracujPLScraper.extractJobInfo, hoid, hoe, hpt] at h
      | some ptag =>
        by_cases ht1 : pracujTitle ptag = ""
        · simp [PracujPLScraper.extractJobInfo, hoid, hoe, hpt, ht1] at h
        · by_cases ht2 : stripStr (pracujTitle ptag) = ""
          · simp [PracujPLScraper.extractJobInfo, hoid, hoe, hpt, ht1, ht2]
              at h
          · refine ⟨oid, ptag, rfl, hoe, rfl, ht1, ?_⟩
            simp [PracujPLScraper.extractJobInfo, hoid, hoe, hpt, ht1, ht2]
              at h
            exact h.symm

/-- A text field with redundant whitespace stripped: no leading whitespace, no
trailing whitespace, and no two consecutive whitespace characters. -/
def wsNormalized (s : String) : Prop :=
  (∀ h, s.data.head? = some h → pyIsSpace h = false) ∧
  (∀ h, s.data.getLast? = some h → pyIsSpace h = false) ∧
  s.data.Chain' (fun a b => pyIsSpace a = false ∨ pyIsSpace b = false)

theorem cleanText_data_cases (x : Option String) :
    (PracujPLScraper.cleanText x).data = []
      ∨ ∃ s : String, (PracujPLScraper.cleanText x).data = cleanTextL s.data := by
  cases x with
  | none => exact Or.inl rfl
  | some s =>
    by_cases hs : s = ""
    · subst hs; exact Or.inl rfl
    · refine Or.inr ⟨s, ?_⟩
      rw [show PracujPLScraper.cleanText (some s)
          = if s = "" then "" else String.mk (cleanTextL s.data) from rfl,
        if_neg hs]

theorem wsNormalized_cleanText (x : Option String) :
    wsNormalized (PracujPLScraper.cleanText x) := by
  rcases cleanText_data_cases x with hnil | ⟨s, hdat⟩
  · refine ⟨?_, ?_, ?_⟩
    · intro h hh; rw [hnil] at hh; simp at hh
    · intro h hh; rw [hnil] at hh; simp at hh
    · rw [hnil]; exact List.chain'_nil
  · refine ⟨?_, ?_, ?_⟩
    · rw [hdat]; exact fun h hh => cleanTextL_head h hh
    · rw [hdat]; exact fun h hh => cleanTextL_getLast h hh
    · rw [hdat]; exact cleanTextL_chain s.data

theorem wsNormalized_NA : wsNormalized "N/A" := by
  refine ⟨?_, ?_, ?_⟩
  · intro h hh
    rw [show ("N/A" : String).data = ['N', '/', 'A'] from rfl] at hh
    have : h = 'N' := (Option.some_inj.mp hh).symm
    subst this; decide
  · intro h hh
    rw [show ("N/A" : String).data = ['N', '/', 'A'] from rfl] at hh
    rw [show (['N', '/', 'A'] : List Char).getLast? = some 'A' from by
      decide] at hh
    have : h = 'A' := (Option.some_inj.mp hh).symm
    subst this; decide
  · rw [show ("N/A" : String).data = ['N', '/', 'A'] from rfl]
    rw [List.chain'_cons, List.chain'_cons]
    exact ⟨Or.inl (by decide), Or.inl (by decide), List.chain'_singleton _⟩

theorem wsNormalized_pracujTitle (ptag : PracujPositionTag) :
    wsNormalized (pracujTitle ptag) := by
  cases hl : ptag.link with
  | none =>
    simp [pracujTitle, hl]
    exact wsNormalized_cleanText _
  | some lt =>
    by_cases h : lt.text = ""
    · simp [pracujTitle, hl, h]
      exact wsNormalized_cleanText _
    · simp [pracujTitle, hl, h]
      exact wsNormalized_cleanText _

theorem wsNormalized_pracujCompany (o : PracujOffer) :
    wsNormalized (pracujCompany o) := by
  cases hcs : o.companySection with
  | some inner =>
    cases inner with
    | some c =>
      simp [pracujCompany, hcs]
      exact wsNormalized_cleanText _
    | none =>
      simp [pracujCompany, hcs]
      exact wsNormalized_NA
  | none =>
    cases hla : o.logoAlt with
    | some alt =>
      by_cases h : alt = ""
      · simp [pracujCompany, hcs, hla, h]
        exact wsNormalized_NA
      · simp [pracujCompany, hcs, hla, h]
        exact wsNormalized_cleanText _
    | none =>
      simp [pracujCompany, hcs, hla]
      exact wsNormalized_NA

theorem wsNormalized_pracujLocation (o : PracujOffer) :
    wsNormalized (pracujLocation o) := by
  cases hlt : o.locationTag with
  | some ltext =>
    simp [pracujLocation, hlt]
    exact wsNormalized_cleanText _
  | none =>
    cases hli : o.locationListItem with
    | some litext =>
      simp [pracujLocation, hlt, hli]
      exact wsNormalized_cleanText _
    | none =>
      simp [pracujLocation, hlt, hli]
      exact wsNormalized_NA

theorem urljoin_pracuj_cases (rel : String) :
    isAbsUrl (urljoin "https://www.pracuj.pl/praca" rel) = true
      ∨ (urljoin "https://www.pracuj.pl/praca" rel = rel
          ∧ hasExplicitScheme rel = true ∧ isAbsUrl rel = false) := by
  rw [urljoin]
  by_cases h0 : rel = ""
  · rw [if_pos h0]; exact Or.inl (by decide)
  · rw [if_neg h0]
    by_cases h1 : (pyStartsWith rel "http://"
        || pyStartsWith rel "https://") = true
    · rw [if_pos h1]
      exact Or.inl h1
    · rw [if_neg h1]
      by_cases hsch : hasExplicitScheme rel = true
      · rw [if_pos hsch]
        refine Or.inr ⟨rfl, hsch, ?_⟩
        rw [show isAbsUrl rel
            = (pyStartsWith rel "http://" || pyStartsWith rel "https://")
            from rfl]
        exact Bool.not_eq_true _ |>.mp h1
      · rw [if_neg hsch]
        by_cases h2 : pyStartsWith rel "/" = true
        · rw [if_pos h2]
          rw [show schemeHost "https://www.pracuj.pl/praca"
              = "https://www.pracuj.pl" from by decide]
          exact Or.inl (isAbsUrl_append (by decide) rel)
        · rw [if_neg h2]
          rw [show dropLastSegment "https://www.pracuj.pl/praca"
              = "https://www.pracuj.pl/" from by decide]
          exact Or.inl (isAbsUrl_append (by decide) rel)

theorem pracujJobUrl_cases (oid : String) (href : Option String) :
    isAbsUrl (pracujJobUrl "https://www.pracuj.pl/praca" oid href) = true
      ∨ ∃ h, href = some h
          ∧ pracujJobUrl "https://www.pracuj.pl/praca" oid href = h
          ∧ hasExplicitScheme h = true ∧ isAbsUrl h = false := by
  cases href with
  | none =>
    simp only [pracujJobUrl]
    exact Or.inl (isAbsUrl_append (isAbsUrl_append (by decide) _) oid)
  | some h =>
    by_cases hh : h = ""
    · simp only [pracujJobUrl, if_pos hh]
      exact Or.inl (isAbsUrl_append (isAbsUrl_append (by decide) _) oid)
    · simp only [pracujJobUrl, if_neg hh]
      rcases urljoin_pracuj_cases h with habs | ⟨heq, hsch, hnabs⟩
      · exact Or.inl habs
      · exact Or.inr ⟨h, rfl, heq, hsch, hnabs⟩

/-- The claim that a record missing only company or location is kept with a
placeholder is false on `ProfessionHUScraper._extract_job_info`: a card with a
valid title and href but no `.job-card__company-name` element yields a kept
record whose company field is null (`None`), not a placeholder string. -/
theorem missing_company_placeholder_claim_false :
    (ProfessionHUScraper.extractJobInfo 0
      ⟨some ⟨"Developer", some "/allas/1"⟩, none, some "Budapest"⟩).map
      JobPost.company_name = some none := rfl

/-- C5 (amended) --- Title and placeholder policy as the extractors implement
it: the Pracuj extractor discards a record whose title element is absent or
whose cleaned title text is empty, and every kept Pracuj record has a
non-empty title; missing Pracuj company/location get the placeholder `"N/A"`;
missing InfoJobs company/location get the placeholders `"Unknown"` and
`"Spain"`; the ProfessionHU extractor discards a record whose title element is
absent, but keeps a record with a missing company element with a null company
field rather than a placeholder. -/
theorem title_discard_and_placeholder_policy :
    (∀ (seed : Nat) (o : PracujOffer) (base : String) (r : JobPost),
      PracujPLScraper.extractJobInfo seed o base = some r →
      ∃ t, r.title = some t ∧ ¬ t = "") ∧
    (∀ (seed : Nat) (o : PracujOffer) (base : String),
      o.positionTag = none →
      PracujPLScraper.extractJobInfo seed o base = none) ∧
    (∀ (seed : Nat) (o : PracujOffer) (base : String) (r : JobPost),
      o.companySection = none → o.logoAlt = none →
      PracujPLScraper.extractJobInfo seed o base = some r →
      r.company_name = some "N/A") ∧
    (∀ (seed : Nat) (o : PracujOffer) (base : String) (r : JobPost),
      o.locationTag = none → o.locationListItem = none →
      PracujPLScraper.extractJobInfo seed o base = some r →
      r.location.city = some "N/A") ∧
    (∀ (seed : Nat) (card : InfoJobsCard) (r : JobPost),
      card.companyEl = none →
      InfoJobsScraper.extractJobInfo seed card = some r →
      r.company_name = some "Unknown") ∧
    (∀ (seed : Nat) (card : InfoJobsCard) (r : JobPost),
      card.locationEl = none →
      InfoJobsScraper.extractJobInfo seed card = some r →
      r.location.city = some "Spain") ∧
    (∀ (seed : Nat) (card : ProfCard),
      card.titleEl = none →
      ProfessionHUScraper.extractJobInfo seed card = none) ∧
    (∀ (seed : Nat) (t : ProfTitleEl) (card : ProfCard) (r : JobPost),
      card.titleEl = some t → card.companyEl = none →
      ProfessionHUScraper.extractJobInfo seed card = some r →
      r.company_name = none) := by
  refine ⟨?_, ?_, ?_, ?_, ?_, ?_, ?_, ?_⟩
  · intro seed o base r h
    obtain ⟨oid, ptag, _, _, _, ht, hr⟩ := pracujExtract_some h
    exact ⟨pracujTitle ptag, by rw [hr], ht⟩
  · intro seed o base h
    simp [PracujPLScraper.extractJobInfo, h]
    cases o.offerId <;> rfl
  · intro seed o base r hcs hla h
    obtain ⟨oid, ptag, _, _, _, _, hr⟩ := pracujExtract_some h
    rw [hr]
    rw [show pracujCompany o = "N/A" from by simp [pracujCompany, hcs, hla]]
  · intro seed o base r hlt hli h
    obtain ⟨oid, ptag, _, _, _, _, hr⟩ := pracujExtract_some h
    rw [hr]
    rw [show pracujLocation o = "N/A" from by
      simp [pracujLocation, hlt, hli]]
  · intro seed card r hc h
    simp [InfoJobsScraper.extractJobInfo, hc] at h
    rw [← h]
  · intro seed card r hc h
    simp [InfoJobsScraper.extractJobInfo, hc] at h
    rw [← h]
  · intro seed card h
    simp [ProfessionHUScraper.extractJobInfo, h]
  · intro seed t card r ht hc h
    cases hh : t.href with
    | none => simp [ProfessionHUScraper.extractJobInfo, ht, hh] at h
    | some rel =>
      by_cases hrel : rel = ""
      · simp [ProfessionHUScraper.extractJobInfo, ht, hh, hrel] at h
      · simp [ProfessionHUScraper.extractJobInfo, ht, hh, hrel, hc] at h
        rw [← h]

/-- Witness for `title_discard_and_placeholder_policy` at a concrete input: a
Pracuj offer element without a title tag is discarded. -/
theorem title_discard_and_placeholder_policy_witness :
    PracujPLScraper.extractJobInfo 0
      ⟨some "1", none, none, none, none, none, none⟩ "b" = none :=
  title_discard_and_placeholder_policy.2.1 0
    ⟨some "1", none, none, none, none, none, none⟩ "b" rfl

/-- The claim that every extracted record has a resolved absolute URL and
whitespace-stripped text fields is false on
`InfoJobsScraper._extract_job_info`: the inner text of the title link is
stored verbatim, so a title rendered as `" Dev "` keeps its leading and
trailing spaces; and a card whose title link has no `href` attribute gets the
malformed URL `https://www.infojobs.netNone` (the f-string formats the absent
value as the text `None`). -/
theorem extraction_normalization_claim_false :
    (InfoJobsScraper.extractJobInfo 0
      ⟨some ⟨" Dev ", some "/of-1"⟩, none, none⟩).map JobPost.title
      = some (some " Dev ") ∧
    ((" Dev " : String).data.head?.map pyIsSpace) = some true ∧
    ((" Dev " : String).data.getLast?.map pyIsSpace) = some true ∧
    (InfoJobsScraper.extractJobInfo 0
      ⟨some ⟨"Dev", none⟩, none, none⟩).map JobPost.job_url
      = some "https://www.infojobs.netNone" := by
  refine ⟨rfl, rfl, by decide, by decide⟩

/-- C6 (amended) --- URL and text-field handling as the extractors implement
it: every record kept by the Pracuj extractor when invoked on its listing URL
`https://www.pracuj.pl/praca` carries either an absolute http(s) URL — an
absolute href is kept, a root-relative or path-relative href is resolved with
`urljoin`, and a missing href gets the absolute fallback
`{base}/oferta/{offer_id}` — or, when the page supplied an href with an
explicit foreign scheme (`mailto:`, `javascript:`, …), that href verbatim,
since `urljoin` returns a reference whose scheme differs from the base's
unchanged; its title, company and location fields are whitespace-normalized
(no leading or trailing whitespace, no two consecutive whitespace
characters). The ProfessionHU extractor instead concatenates its base URL
with the raw href (correct only for root-relative hrefs) and strips no
whitespace. -/
theorem pracuj_extraction_absolute_and_clean (seed : Nat) (o : PracujOffer)
    (r : JobPost)
    (h : PracujPLScraper.extractJobInfo seed o
      "https://www.pracuj.pl/praca" = some r) :
    (isAbsUrl r.job_url = true
      ∨ (hasExplicitScheme r.job_url = true ∧ isAbsUrl r.job_url = false)) ∧
    (∀ t, r.title = some t → wsNormalized t) ∧
    (∀ c, r.company_name = some c → wsNormalized c) ∧
    (∀ c, r.location.city = some c → wsNormalized c) ∧
    (∀ (s2 : Nat) (t : ProfTitleEl) (c : ProfCard) (r2 : JobPost)
        (rel : String),
      c.titleEl = some t → t.href = some rel → ¬ rel = "" →
      ProfessionHUScraper.extractJobInfo s2 c = some r2 →
      r2.job_url = ProfessionHUScraper.base_url ++ rel) := by
  obtain ⟨oid, ptag, _, _, _, _, hr⟩ := pracujExtract_some h
  subst hr
  have hurl : isAbsUrl (pracujJobUrl "https://www.pracuj.pl/praca" oid
        (pracujLinkHref o ptag)) = true
      ∨ (hasExplicitScheme (pracujJobUrl "https://www.pracuj.pl/praca" oid
          (pracujLinkHref o ptag)) = true
        ∧ isAbsUrl (pracujJobUrl "https://www.pracuj.pl/praca" oid
          (pracujLinkHref o ptag)) = false) := by
    rcases pracujJobUrl_cases oid (pracujLinkHref o ptag) with habs
      | ⟨hh, _, heq, hsch, hnabs⟩
    · exact Or.inl habs
    · rw [heq]
      exact Or.inr ⟨hsch, hnabs⟩
  refine ⟨hurl, ?_, ?_, ?_, ?_⟩
  · intro t ht
    rw [Option.some_inj.mp ht.symm]
    exact wsNormalized_pracujTitle ptag
  · intro c hc
    rw [Option.some_inj.mp hc.symm]
    exact wsNormalized_pracujCompany o
  · intro c hc
    rw [Option.some_inj.mp hc.symm]
    exact wsNormalized_pracujLocation o
  · intro s2 t c r2 rel ht hh hrel h2
    by_cases hx : rel = ""
    · exact absurd hx hrel
    · simp [ProfessionHUScraper.extractJobInfo, ht, hh, hx] at h2
      rw [← h2]

/-- Witness for `pracuj_extraction_absolute_and_clean` at a concrete offer:
the resolved URL of a root-relative href is absolute (or a verbatim
foreign-scheme href, which this input does not exercise). -/
theorem pracuj_extraction_absolute_and_clean_witness :
    isAbsUrl "https://www.pracuj.pl/x,oferta,1" = true
      ∨ (hasExplicitScheme "https://www.pracuj.pl/x,oferta,1" = true
        ∧ isAbsUrl "https://www.pracuj.pl/x,oferta,1" = false) :=
  (pracuj_extraction_absolute_and_clean 0
    ⟨some "1", some ⟨"x", some ⟨"Senior Dev", some "/x,oferta,1"⟩⟩, none,
      none, none, none, none⟩
    ⟨"pracujpl-1", some "Senior Dev", some "N/A",
      ⟨some "N/A", none, ⟨"Poland"⟩⟩, "https://www.pracuj.pl/x,oferta,1",
      none⟩ (by decide)).1

/-- The outcome of processing one card inside `InfoJobsScraper._fetch_jobs`
(lines 86-93): the extraction raised (caught at lines 91-92 and skipped), or
`_extract_job_info` returned `None` (skipped), or it produced a record. -/
inductive InfoCardOutcome
  | raiseErr (msg : String)
  | discarded
  | post (j : JobPost)
deriving DecidableEq, Repr

/-- The outcome of one page fetch as `InfoJobsScraper._fetch_jobs` observes
it: the navigation / selector wait raised (caught by the outer handler at
lines 95-97, which returns `None`), or the list of card outcomes (an empty
list models `query_selector_all` finding no cards, line 81). -/
inductive InfoFetchOutcome
  | raiseErr (msg : String)
  | cards (cs : List InfoCardOutcome)
deriving DecidableEq, Repr

/-- The per-card loop of `InfoJobsScraper._fetch_jobs` (lines 85-93): raised
and discarded cards are skipped, records are appended in order. -/
def infoExtractPosts : List InfoCardOutcome → List JobPost
  | [] => []
  | InfoCardOutcome.raiseErr _ :: cs => infoExtractPosts cs
  | InfoCardOutcome.discarded :: cs => infoExtractPosts cs
  | InfoCardOutcome.post j :: cs => j :: infoExtractPosts cs

/-- `InfoJobsScraper._fetch_jobs` (lines 62-97): a page-level raise yields
`None` (lines 95-97); an empty card list yields `None` (lines 81-83);
otherwise the per-card loop result is returned. -/
def infoFetchJobs : InfoFetchOutcome → Option (List JobPost)
  | InfoFetchOutcome.raiseErr _ => none
  | InfoFetchOutcome.cards [] => none
  | InfoFetchOutcome.cards (c :: cs) => some (infoExtractPosts (c :: cs))

/-- The loop of `InfoJobsScraper._async_scrape` (lines 47-56) over explicit
page outcomes: `if not jobs: break` covers both the `None` of a failed or
empty fetch and an empty extracted list. -/
def infoScrapeLoop (wanted : Nat) :
    List InfoFetchOutcome → List JobPost → List JobPost
  | [], acc => acc
  | f :: fs, acc =>
    if acc.length < wanted then
      match infoFetchJobs f with
      | none => acc
      | some jobs =>
        if jobs.isEmpty then acc
        else infoScrapeLoop wanted fs (acc ++ jobs.take (wanted - acc.length))
    else acc

/-- `InfoJobsScraper._async_scrape` over explicit page outcomes: always
returns a `JobResponse`, never an exception. -/
def InfoJobsScraper.asyncScrape (wanted : Nat)
    (pages : List InfoFetchOutcome) : JobResponse :=
  ⟨infoScrapeLoop wanted pages []⟩

/-- The outcome of converting one listing in
`UpworkScraper._convert_to_job_posts` (lines 147-182): the conversion raised
(caught at lines 178-180, `continue`) or produced a record. -/
inductive UpworkConvertOutcome
  | raiseErr (msg : String)
  | post (j : JobPost)
deriving DecidableEq, Repr

/-- The conversion loop of `UpworkScraper._convert_to_job_posts`. -/
def upworkConvertPosts : List UpworkConvertOutcome → List JobPost
  | [] => []
  | UpworkConvertOutcome.raiseErr _ :: js => upworkConvertPosts js
  | UpworkConvertOutcome.post j :: js => j :: upworkConvertPosts js

/-- `UpworkScraper._async_scrape` (lines 42-60): the whole pipeline runs
inside one handler; any raise from the Firecrawl fetch or the Gemini call is
caught and an empty response is returned, otherwise the conversion outcomes
are folded. -/
def UpworkScraper.asyncScrape :
    Except String (List UpworkConvertOutcome) → JobResponse
  | Except.error _ => ⟨[]⟩
  | Except.ok listings => ⟨upworkConvertPosts listings⟩

/-- The outcome of the initial page load and search interaction of
`ArbetsformedlingenScraper._async_scrape`: `page.goto` at line 87 or the
fill/click at lines 105-106 raised (outside every handler), or the wait for
the first results timed out (caught at lines 112-115), or the results
loaded. -/
inductive ArbetsInit
  | raiseErr (msg : String)
  | waitTimeout
  | ok
deriving DecidableEq, Repr

/-- The outcome of processing one card in the Arbetsformedlingen loop: a raise
caught at lines 231-252 (`continue`), a missing link skipped at lines 167-169
(`continue`), or an extracted record. -/
inductive ArbetsCardOutcome
  | raiseErr (msg : String)
  | noLink
  | post (j : JobPost)
deriving DecidableEq, Repr

/-- The outcome of one later results page: next-page navigation raised
(caught at lines 133-138, `break`), or the list of card outcomes. -/
inductive ArbetsPage
  | navFail
  | cards (cs : List ArbetsCardOutcome)
deriving DecidableEq, Repr

/-- The per-card loop of `ArbetsformedlingenScraper._async_scrape`
(lines 148-252): stops once the quota is reached, skips failed cards,
appends extracted records in order. -/
def arbetsPageJobs (wanted : Nat) :
    List ArbetsCardOutcome → List JobPost → List JobPost
  | [], acc => acc
  | c :: cs, acc =>
    if acc.length < wanted then
      match c with
      | ArbetsCardOutcome.raiseErr _ => arbetsPageJobs wanted cs acc
      | ArbetsCardOutcome.noLink => arbetsPageJobs wanted cs acc
      | ArbetsCardOutcome.post j => arbetsPageJobs wanted cs (acc ++ [j])
    else acc

/-- The pagination loop of `ArbetsformedlingenScraper._async_scrape`
(lines 117-266): a failed next-page navigation or an empty card list breaks
the loop with the records collected so far; reaching the quota stops
(lines 255-257). -/
def arbetsLoop (wanted : Nat) : List ArbetsPage → List JobPost → List JobPost
  | [], acc => acc
  | pg :: pgs, acc =>
    if acc.length < wanted then
      match pg with
      | ArbetsPage.navFail => acc
      | ArbetsPage.cards [] => acc
      | ArbetsPage.cards (c :: cs) =>
        if wanted ≤ (arbetsPageJobs wanted (c :: cs) acc).length then
          arbetsPageJobs wanted (c :: cs) acc
        else arbetsLoop wanted pgs (arbetsPageJobs wanted (c :: cs) acc)
    else acc

/-- `ArbetsformedlingenScraper._async_scrape` with the exception flow made
explicit: an exception on the initial page load / search escapes to the
caller of `scrape` (through `asyncio.run`), modelled as the `Except.error`
result; a timeout waiting for the first results is caught and yields an empty
response; the loop then starts with the already-loaded first results page. -/
def ArbetsformedlingenScraper.asyncScrape (wanted : Nat) (init : ArbetsInit)
    (firstCards : List ArbetsCardOutcome) (rest : List ArbetsPage) :
    Except String JobResponse :=
  match init with
  | ArbetsInit.raiseErr msg => Except.error msg
  | ArbetsInit.waitTimeout => Except.ok ⟨[]⟩
  | ArbetsInit.ok =>
    Except.ok ⟨arbetsLoop wanted (ArbetsPage.cards firstCards :: rest) []⟩

/-- The never-raises claim is false on `ArbetsformedlingenScraper._async_scrape`:
`page.goto(initial_search_url)` at line 87 runs outside every try/except, so
an exception while fetching that single page propagates through `asyncio.run`
to the caller of `scrape` instead of returning a (possibly empty) result
collection. -/
theorem initial_page_failure_raises :
    ArbetsformedlingenScraper.asyncScrape 10
      (ArbetsInit.raiseErr "net::ERR_NAME_NOT_RESOLVED") [] []
      = Except.error "net::ERR_NAME_NOT_RESOLVED" := rfl

theorem infoScrapeLoop_raise (wanted : Nat) (pre post : List InfoFetchOutcome)
    (msg : String) (acc : List JobPost) :
    infoScrapeLoop wanted (pre ++ InfoFetchOutcome.raiseErr msg :: post) acc
      = infoScrapeLoop wanted pre acc := by
  induction pre generalizing acc with
  | nil =>
    by_cases hlt : acc.length < wanted
    · simp [infoScrapeLoop, infoFetchJobs, hlt]
    · simp [infoScrapeLoop, hlt]
  | cons f fs ih =>
    by_cases hlt : acc.length < wanted
    · simp only [List.cons_append]
      rw [show infoScrapeLoop wanted
          (f :: (fs ++ InfoFetchOutcome.raiseErr msg :: post)) acc
          = if acc.length < wanted then
              (match infoFetchJobs f with
               | none => acc
               | some jobs =>
                 if jobs.isEmpty then acc
                 else infoScrapeLoop wanted
                   (fs ++ InfoFetchOutcome.raiseErr msg :: post)
                   (acc ++ jobs.take (wanted - acc.length)))
            else acc from rfl]
      rw [show infoScrapeLoop wanted (f :: fs) acc
          = if acc.length < wanted then
              (match infoFetchJobs f with
               | none => acc
               | some jobs =>
                 if jobs.isEmpty then acc
                 else infoScrapeLoop wanted fs
                   (acc ++ jobs.take (wanted - acc.length)))
            else acc from rfl]
      rw [if_pos hlt, if_pos hlt]
      cases infoFetchJobs f with
      | none => rfl
      | some jobs =>
        by_cases hj : jobs.isEmpty
        · simp [hj]
        · have hjf : jobs.isEmpty = false := Bool.not_eq_true _ |>.mp hj
          simp only [hjf, Bool.false_eq_true, if_false]
          exact ih _
    · simp [infoScrapeLoop, hlt]

/-- C4 (amended) --- Failure recovery as the scrapers implement it. In
InfoJobs (and the identically structured Pracuj, ProfessionHU and PosaoHR
loops): a page whose fetch raises only ends the loop, returning the records
already collected, and a card whose extraction raises is skipped, never
propagated. In Upwork the whole pipeline is wrapped, so any raise yields an
empty response, and a failed listing conversion is skipped. In
Arbetsformedlingen per-card failures are skipped, a failed next-page
navigation returns the collected records, and once the initial search results
have loaded (or their wait timed out) the scrape never raises — but an
exception while loading the initial search page itself escapes to the caller
(see the counterexample). -/
theorem page_and_record_failures_recovered :
    (∀ (wanted : Nat) (pre post : List InfoFetchOutcome) (msg : String),
      InfoJobsScraper.asyncScrape wanted
        (pre ++ InfoFetchOutcome.raiseErr msg :: post)
        = InfoJobsScraper.asyncScrape wanted pre) ∧
    (∀ (msg : String) (cs : List InfoCardOutcome),
      infoExtractPosts (InfoCardOutcome.raiseErr msg :: cs)
        = infoExtractPosts cs) ∧
    (∀ msg, UpworkScraper.asyncScrape (Except.error msg) = ⟨[]⟩) ∧
    (∀ (msg : String) (js : List UpworkConvertOutcome),
      upworkConvertPosts (UpworkConvertOutcome.raiseErr msg :: js)
        = upworkConvertPosts js) ∧
    (∀ (wanted : Nat) (msg : String) (cs : List ArbetsCardOutcome)
        (acc : List JobPost),
      arbetsPageJobs wanted (ArbetsCardOutcome.raiseErr msg :: cs) acc
        = arbetsPageJobs wanted cs acc) ∧
    (∀ (wanted : Nat) (pgs : List ArbetsPage) (acc : List JobPost),
      arbetsLoop wanted (ArbetsPage.navFail :: pgs) acc = acc) ∧
    (∀ (wanted : Nat) (fc : List ArbetsCardOutcome) (rest : List ArbetsPage),
      ∃ jobs, ArbetsformedlingenScraper.asyncScrape wanted ArbetsInit.ok
        fc rest = Except.ok ⟨jobs⟩) ∧
    (∀ (wanted : Nat) (fc : List ArbetsCardOutcome) (rest : List ArbetsPage),
      ArbetsformedlingenScraper.asyncScrape wanted ArbetsInit.waitTimeout
        fc rest = Except.ok ⟨[]⟩) := by
  refine ⟨?_, fun _ _ => rfl, fun _ => rfl, fun _ _ => rfl, ?_, ?_,
    fun wanted fc rest => ⟨_, rfl⟩, fun _ _ _ => rfl⟩
  · intro wanted pre post msg
    rw [InfoJobsScraper.asyncScrape, InfoJobsScraper.asyncScrape,
      infoScrapeLoop_raise]
  · intro wanted msg cs acc
    by_cases hlt : acc.length < wanted
    · simp [arbetsPageJobs, hlt]
    · cases cs with
      | nil => simp [arbetsPageJobs, hlt]
      | cons c cs2 => simp [arbetsPageJobs, hlt]
  · intro wanted pgs acc
    by_cases hlt : acc.length < wanted
    · simp [arbetsLoop, hlt]
    · simp [arbetsLoop, hlt]

/-- The run-dependence of identifiers observed at the extractor itself: the
same InfoJobs card, with the same canonical URL, receives different
identifiers under two different process hash seeds. -/
theorem extract_job_id_differs_across_seeds :
    ((InfoJobsScraper.extractJobInfo 0
        ⟨some ⟨"Dev", some "https://www.infojobs.net/of-1"⟩, none, none⟩).map
        JobPost.id
      == (InfoJobsScraper.extractJobInfo 1
        ⟨some ⟨"Dev", some "https://www.infojobs.net/of-1"⟩, none, none⟩).map
        JobPost.id) = false := by
  decide
